import Mathlib

/-
Verification of the PRM (Probabilistic Roadmap) construction library
declared in src/map/include/map/prm.hpp.  The repository ships only the
header (declarations and doc comments); every member function body is
missing from src/, so the operations below are modelled from the spec
(spec.md), while the data model (struct Edge, struct Vertex, class PRM)
follows the header.  Coordinates are modelled with exact rationals; the
Euclidean distance referred to by the spec is Real.sqrt of the rational
squared distance, and stored edge distances use the (order-equivalent)
exact squared distance so that all roadmap operations stay executable.
-/

namespace map

/-- 2D Cartesian vector (rigid2d::Vector2D, consumed as an external
primitive capability per the spec). -/
structure Vector2D where
  x : ℚ
  y : ℚ
deriving DecidableEq

/-- Rational subtraction, written through `mkRat` so that it evaluates
inside the proof kernel (the kernel cannot unfold the built-in rational
arithmetic); `qsub_eq` proves it equal to `a - b`. -/
def qsub (a b : ℚ) : ℚ :=
  mkRat (a.num * b.den - b.num * a.den) (a.den * b.den)

/-- Rational multiplication through `mkRat`; equals `a * b` (`qmul_eq`). -/
def qmul (a b : ℚ) : ℚ :=
  mkRat (a.num * b.num) (a.den * b.den)

/-- Rational addition through `mkRat`; equals `a + b` (`qadd_eq`). -/
def qadd (a b : ℚ) : ℚ :=
  mkRat (a.num * b.den + b.num * a.den) (a.den * b.den)

/-- Squared Euclidean distance between two points, exact in ℚ.
`sqDist_eq` identifies it with `(a.x - b.x) ^ 2 + (a.y - b.y) ^ 2`. -/
def sqDist (a b : Vector2D) : ℚ :=
  qadd (qmul (qsub a.x b.x) (qsub a.x b.x)) (qmul (qsub a.y b.y) (qsub a.y b.y))

/-- Euclidean distance between two points, as a real number.  This is the
mathematical referent used in theorem statements; the executable code works
with `sqDist`, its square. -/
noncomputable def euclid (a b : Vector2D) : ℝ :=
  Real.sqrt ((sqDist a b : ℚ) : ℝ)

/-- Modelled from the spec: the Geometry Oracle, the external
obstacle/workspace capability (class Map in map.hpp, not in src/).
`pointFree p` is the point test: true iff `p` lies on no obstacle.
`segFree a b r` is the inflated-segment test: true iff the segment from
`a` to `b`, inflated by robot radius `r`, intersects no obstacle. -/
structure Oracle where
  pointFree : Vector2D → Bool
  segFree : Vector2D → Vector2D → ℚ → Bool

/-- struct Edge of prm.hpp: ID of the next node connected by the edge
(initialized to -1 for error checking) and the distance between the two
vertices.  The stored distance is modelled as the exact squared Euclidean
distance (a strictly monotone encoding of the distance, computed once). -/
structure Edge where
  next_id : Int := -1
  distance : ℚ
deriving DecidableEq

/-- struct Vertex of prm.hpp: id (init -1), Cartesian coordinates, the
ordered edge list, the hash set of adjacent ids, and the transient
traversal marker `visited`. -/
structure Vertex where
  id : Int := -1
  coords : Vector2D
  edges : List Edge := []
  id_set : Finset Int := ∅
  visited : Bool := false
deriving DecidableEq

/-- Modelled from the spec: the Vertex(coords) constructor (declared at
prm.hpp:25, body not in src/) stores the coordinates, leaves the id at the
sentinel -1, starts with no edges and no neighbor ids, and initializes the
`visited` marker to its fixed default false. -/
def mkVertex (c : Vector2D) : Vertex :=
  { id := -1, coords := c, edges := [], id_set := ∅, visited := false }

/-- A vertex as inserted by the Sampler: as `mkVertex` but with the
assigned identifier. -/
def mkVertexI (i : Int) (c : Vector2D) : Vertex :=
  { id := i, coords := c, edges := [], id_set := ∅, visited := false }

/-- Modelled from the spec: Vertex::edge_exists (declared at prm.hpp:44,
body not in src/) checks the ID hash table: true iff the current vertex is
connected to the given id, i.e. membership in `id_set`. -/
def Vertex.edge_exists (v : Vertex) (check_id : Int) : Bool :=
  decide (check_id ∈ v.id_set)

/-- Modelled from the spec: the one-argument PRM::no_collision (declared at
prm.hpp:79, body not in src/): whether a potential vertex lies on no
obstacle, delegated to the Geometry Oracle's point test. -/
def no_collision (o : Oracle) (q : Vertex) : Bool :=
  o.pointFree q.coords

/-- Modelled from the spec: the three-argument PRM::no_collision (declared
at prm.hpp:85, body not in src/): whether the edge between two vertices,
inflated by the robot radius, intersects no obstacle, delegated to the
Geometry Oracle's segment test. -/
def no_collision3 (o : Oracle) (q q_prime : Vertex) (inflate_robot : ℚ) : Bool :=
  o.segFree q.coords q_prime.coords inflate_robot

/-- Executable test for `euclid a b ≤ t`: since the distance is the
nonnegative square root of `sqDist a b`, this holds iff `0 ≤ t` and
`sqDist a b ≤ t ^ 2`. -/
def distLE (a b : Vector2D) (t : ℚ) : Bool :=
  decide (0 ≤ t ∧ sqDist a b ≤ qmul t t)

/-- Modelled from the spec: PRM::edge_valid (declared at prm.hpp:75, body
not in src/): true iff the Euclidean distance between the two vertices is
at most `thresh` and strictly positive, and the inflated segment between
them intersects no obstacle (three-argument no_collision). -/
def edge_valid (o : Oracle) (inflate_robot : ℚ) (q q_prime : Vertex) (thresh : ℚ) : Bool :=
  distLE q.coords q_prime.coords thresh
    && decide (0 < sqDist q.coords q_prime.coords)
    && no_collision3 o q q_prime inflate_robot

/-- The total preorder used by the Neighbor Finder: nearer to `q` first,
ties broken in favor of the smaller identifier. -/
def knnLE (q a b : Vertex) : Prop :=
  sqDist a.coords q.coords < sqDist b.coords q.coords ∨
    (sqDist a.coords q.coords = sqDist b.coords q.coords ∧ a.id ≤ b.id)

instance knnLEDec (q : Vertex) : DecidableRel (knnLE q) := fun a b => by
  unfold knnLE
  exact inferInstance

instance knnLETotal (q : Vertex) : IsTotal Vertex (knnLE q) where
  total a b := by
    rcases lt_trichotomy (sqDist a.coords q.coords) (sqDist b.coords q.coords) with h | h | h
    · exact Or.inl (Or.inl h)
    · rcases le_total a.id b.id with hi | hi
      · exact Or.inl (Or.inr ⟨h, hi⟩)
      · exact Or.inr (Or.inr ⟨h.symm, hi⟩)
    · exact Or.inr (Or.inl h)

instance knnLETrans (q : Vertex) : IsTrans Vertex (knnLE q) where
  trans a b c hab hbc := by
    rcases hab with h1 | ⟨h1, h1'⟩ <;> rcases hbc with h2 | ⟨h2, h2'⟩
    · exact Or.inl (h1.trans h2)
    · exact Or.inl (h2 ▸ h1)
    · exact Or.inl (h1 ▸ h2)
    · exact Or.inr ⟨h1.trans h2, h1'.trans h2'⟩

/-- The other vertices of the store: every vertex whose id differs from
`q`'s (self-exclusion). -/
def othersOf (st : List Vertex) (q : Vertex) : List Vertex :=
  st.filter (fun v => decide (v.id ≠ q.id))

/-- The other vertices, sorted by distance to `q` with the id tie-break. -/
def sortedOthers (st : List Vertex) (q : Vertex) : List Vertex :=
  List.insertionSort (knnLE q) (othersOf st q)

/-- The identifiers of the up-to-`k` nearest other vertices to `q`. -/
def knnIds (st : List Vertex) (q : Vertex) (k : ℕ) : List Int :=
  ((sortedOthers st q).take k).map Vertex.id

/-- Modelled from the spec: PRM::find_knn (declared at prm.hpp:69, body not
in src/): brute force over the Configuration Store, records the ids of the
up-to-`k` nearest other vertices into `q`'s id_set (candidates only; edges
are the Edge Validator's job). -/
def find_knn (st : List Vertex) (q : Vertex) (k : ℕ) : Vertex :=
  { q with id_set := q.id_set ∪ (knnIds st q k).toFinset }

/-- Assigns consecutive identifiers, starting at `i`, to a list of sampled
points, producing fresh vertices. -/
def assignIds : Int → List Vector2D → List Vertex
  | _, [] => []
  | i, c :: rest => mkVertexI i c :: assignIds (i + 1) rest

/-- Modelled from the spec: PRM::sample_configurations (declared at
prm.hpp:63, body not in src/).  The seeded random source is modelled as the
list `draws` of candidate points, whose length is the bounded retry budget.
Each draw is kept iff the Geometry Oracle's point test passes; accepted
draws receive the next unused identifier (0, 1, ...).  If the budget is
exhausted before `n` collision-free configurations are found, sampling
fails (SamplingExhausted). -/
def sample_configurations (o : Oracle) (draws : List Vector2D) (n : ℕ) : Option (List Vertex) :=
  if ((draws.filter o.pointFree).take n).length = n then
    some (assignIds 0 ((draws.filter o.pointFree).take n))
  else none

/-- One half of a committed edge: append `(j, d)` to the edge list and
insert `j` into the id set. -/
def addHalf (j : Int) (d : ℚ) (v : Vertex) : Vertex :=
  { v with
    edges := v.edges ++ [{ next_id := j, distance := d }],
    id_set := insert j v.id_set }

/-- Update the vertex with identifier `i` (if present) in the store. -/
def updAt (st : List Vertex) (i : Int) (f : Vertex → Vertex) : List Vertex :=
  st.map (fun v => if v.id = i then f v else v)

/-- Look up the vertex with identifier `i` in the store. -/
def findV (st : List Vertex) (i : Int) : Option Vertex :=
  st.find? (fun v => decide (v.id = i))

/-- Commit a bidirectional edge between the vertices with ids `i` and `j`:
both endpoints get the other's id appended to edges and inserted into
id_set, with the same distance value `d`. -/
def commitEdge (st : List Vertex) (i j : Int) (d : ℚ) : List Vertex :=
  updAt (updAt st i (addHalf j d)) j (addHalf i d)

/-- One candidate step of the Connecting state: look up the endpoints, run
the Edge Validator, and commit the bidirectional edge unless it already
exists (checked via edge_exists); duplicate attempts are silently
skipped. -/
def tryEdge (o : Oracle) (inflate_robot thresh : ℚ) (qid : Int) (st : List Vertex) (c : Int) :
    List Vertex :=
  match findV st qid, findV st c with
  | some q, some cv =>
      if edge_valid o inflate_robot q cv thresh && ! q.edge_exists c then
        commitEdge st qid c (sqDist q.coords cv.coords)
      else st
  | _, _ => st

/-- Connecting, one vertex: get the up-to-`k` nearest candidates and try
each in order. -/
def connectOne (o : Oracle) (inflate_robot thresh : ℚ) (k : ℕ) (st : List Vertex) (qid : Int) :
    List Vertex :=
  match findV st qid with
  | none => st
  | some q => (knnIds st q k).foldl (tryEdge o inflate_robot thresh qid) st

/-- Modelled from the spec: the Connecting state of the Roadmap Builder
(spec section 4.4): vertices are processed in insertion order; for each,
the Neighbor Finder yields up-to-`k` candidates, each candidate is run
through the Edge Validator, and on success the bidirectional edge is
appended to both endpoints' edges and id sets unless it already exists. -/
def connect (o : Oracle) (inflate_robot thresh : ℚ) (k : ℕ) (st : List Vertex) : List Vertex :=
  (st.map Vertex.id).foldl (connectOne o inflate_robot thresh k) st

/-- The build_map error taxonomy of spec section 7 that can reach a
caller. -/
inductive BuildError where
  | invalidParameter
  | samplingExhausted
deriving DecidableEq

/-- Modelled from the spec: PRM::build_map (declared at prm.hpp:59, body
not in src/).  The state machine of spec section 4.4 enters Empty (the
Configuration Store is cleared) at the start of every call; parameters
n ≤ 0, k ≤ 0 or thresh ≤ 0 are rejected before any sampling begins
(InvalidParameter); a sampling failure aborts the call leaving the store
Empty (SamplingExhausted); otherwise the Connecting state runs and the
completed roadmap becomes the new store.  Returns the new store and the
error, if any. -/
def build_map (o : Oracle) (inflate_robot : ℚ) (draws : List Vector2D) (n k : Int) (thresh : ℚ)
    (st : List Vertex) : List Vertex × Option BuildError :=
  if n ≤ 0 ∨ k ≤ 0 ∨ thresh ≤ 0 then ([], some BuildError.invalidParameter)
  else
    match sample_configurations o draws n.toNat with
    | none => ([], some BuildError.samplingExhausted)
    | some vs => (connect o inflate_robot thresh k.toNat vs, none)

/-- Modelled from the spec: PRM::return_prm (declared at prm.hpp:89, body
not in src/): the roadmap as a mapping from id to vertex, returned by value
(a snapshot). -/
def return_prm (st : List Vertex) : List (Int × Vertex) :=
  st.map (fun v => (v.id, v))

/-- The Configuration Store of a freshly constructed PRM: the
default-constructed hash table is empty. -/
def initialPRM : List Vertex := []

/-- Overwrite the transient `visited` marker of a vertex. -/
def setVis (b : Bool) (v : Vertex) : Vertex :=
  { v with visited := b }

/-- An obstacle-free Geometry Oracle (used for concrete scenarios). -/
def oAll : Oracle :=
  { pointFree := fun _ => true, segFree := fun _ _ _ => true }

/-- The construction-relevant projection of a vertex: identifier,
coordinates and the transient marker.  Edges and id sets are the parts the
Connecting state mutates; this shape is what it preserves. -/
def shape (v : Vertex) : Int × Vector2D × Bool :=
  (v.id, v.coords, v.visited)

/-- The combined effect of `commitEdge st i j d` on a single vertex. -/
def upd2 (i j : Int) (d : ℚ) (v : Vertex) : Vertex :=
  if v.id = i then addHalf j d v
  else if v.id = j then addHalf i d v
  else v

/-- Well-formedness of a Configuration Store: unique identifiers, the
edges/id_set lockstep, no duplicate edges, no self-loops, and symmetric
edges whose endpoints exist. -/
structure Wf (st : List Vertex) : Prop where
  nodupIds : (st.map Vertex.id).Nodup
  lock : ∀ v ∈ st, v.id_set = (v.edges.map Edge.next_id).toFinset
  edgesNodup : ∀ v ∈ st, (v.edges.map Edge.next_id).Nodup
  noSelf : ∀ v ∈ st, v.id ∉ v.id_set
  sym : ∀ v ∈ st, ∀ e ∈ v.edges, ∃ w ∈ st, w.id = e.next_id ∧
    ({ next_id := v.id, distance := e.distance } : Edge) ∈ w.edges

/-- Two sampled points for concrete scenarios. -/
def drawsA : List Vector2D := [⟨0, 0⟩, ⟨1, 0⟩]

/-- A concrete successful build: two free samples, one neighbor each,
threshold 2 in an obstacle-free workspace. -/
def builtA : List Vertex := (build_map oAll 0 drawsA 2 1 2 []).1

/-- The first vertex of the concrete roadmap `builtA`. -/
def vA0 : Vertex :=
  { id := 0, coords := ⟨0, 0⟩, edges := [{ next_id := 1, distance := 1 }],
    id_set := {1}, visited := false }

/-- A concrete two-vertex store of fresh (edge-less) vertices. -/
def stB : List Vertex := [mkVertexI 0 ⟨0, 0⟩, mkVertexI 1 ⟨1, 0⟩]

/-- A concrete nonempty store, used to observe what a failing build_map
does to an existing roadmap. -/
def stC : List Vertex := [mkVertexI 5 ⟨2, 2⟩]

theorem rat_mul_den (a : ℚ) : a * ((a.den : ℚ)) = (a.num : ℚ) := by
  have h := Rat.num_div_den a
  rw [div_eq_iff (Nat.cast_ne_zero.mpr a.den_nz)] at h
  exact h.symm

theorem qsub_eq (a b : ℚ) : qsub a b = a - b := by
  unfold qsub
  have ha : ((a.den : ℚ)) ≠ 0 := Nat.cast_ne_zero.mpr a.den_nz
  have hb : ((b.den : ℚ)) ≠ 0 := Nat.cast_ne_zero.mpr b.den_nz
  rw [Rat.mkRat_eq_div, div_eq_iff (by push_cast; exact mul_ne_zero ha hb)]
  push_cast
  rw [← rat_mul_den a, ← rat_mul_den b]
  ring

theorem qmul_eq (a b : ℚ) : qmul a b = a * b := by
  unfold qmul
  have ha : ((a.den : ℚ)) ≠ 0 := Nat.cast_ne_zero.mpr a.den_nz
  have hb : ((b.den : ℚ)) ≠ 0 := Nat.cast_ne_zero.mpr b.den_nz
  rw [Rat.mkRat_eq_div, div_eq_iff (by push_cast; exact mul_ne_zero ha hb)]
  push_cast
  rw [← rat_mul_den a, ← rat_mul_den b]
  ring

theorem qadd_eq (a b : ℚ) : qadd a b = a + b := by
  unfold qadd
  have ha : ((a.den : ℚ)) ≠ 0 := Nat.cast_ne_zero.mpr a.den_nz
  have hb : ((b.den : ℚ)) ≠ 0 := Nat.cast_ne_zero.mpr b.den_nz
  rw [Rat.mkRat_eq_div, div_eq_iff (by push_cast; exact mul_ne_zero ha hb)]
  push_cast
  rw [← rat_mul_den a, ← rat_mul_den b]
  ring

theorem sqDist_eq (a b : Vector2D) : sqDist a b = (a.x - b.x) ^ 2 + (a.y - b.y) ^ 2 := by
  unfold sqDist
  rw [qadd_eq, qmul_eq, qmul_eq, qsub_eq, qsub_eq]
  ring

theorem sqDist_nonneg (a b : Vector2D) : 0 ≤ sqDist a b := by
  rw [sqDist_eq]
  positivity

theorem sqDist_self (a : Vector2D) : sqDist a a = 0 := by
  rw [sqDist_eq]
  ring

theorem euclid_le_iff (a b : Vector2D) (t : ℚ) :
    euclid a b ≤ (t : ℝ) ↔ 0 ≤ t ∧ sqDist a b ≤ t ^ 2 := by
  unfold euclid
  rw [Real.sqrt_le_iff, show ((t : ℝ) ^ 2) = ((t ^ 2 : ℚ) : ℝ) by push_cast; ring]
  constructor
  · rintro ⟨h1, h2⟩
    exact ⟨by exact_mod_cast h1, by exact_mod_cast h2⟩
  · rintro ⟨h1, h2⟩
    exact ⟨by exact_mod_cast h1, by exact_mod_cast h2⟩

theorem euclid_pos (a b : Vector2D) : 0 < euclid a b ↔ 0 < sqDist a b := by
  unfold euclid
  rw [Real.sqrt_pos]
  exact_mod_cast Iff.rfl

theorem euclid_lt_iff (a b c d : Vector2D) :
    euclid a b < euclid c d ↔ sqDist a b < sqDist c d := by
  unfold euclid
  rw [Real.sqrt_lt_sqrt_iff (by exact_mod_cast sqDist_nonneg a b)]
  exact_mod_cast Iff.rfl

theorem euclid_eq_iff (a b c d : Vector2D) :
    euclid a b = euclid c d ↔ sqDist a b = sqDist c d := by
  unfold euclid
  rw [Real.sqrt_inj (by exact_mod_cast sqDist_nonneg a b) (by exact_mod_cast sqDist_nonneg c d)]
  exact_mod_cast Iff.rfl

/-- C1: `edge_valid(q, q_prime, thresh)` returns true if and only if the
Euclidean distance between `q` and `q_prime` is at most `thresh` and
strictly greater than zero, and the inflated segment between them (as
reported by the three-argument `no_collision` with the robot inflation
radius) does not intersect any obstacle. -/
theorem edge_valid_iff (o : Oracle) (inflate_robot : ℚ) (q q_prime : Vertex) (thresh : ℚ) :
    edge_valid o inflate_robot q q_prime thresh = true ↔
      (euclid q.coords q_prime.coords ≤ (thresh : ℝ) ∧
        0 < euclid q.coords q_prime.coords ∧
        no_collision3 o q q_prime inflate_robot = true) := by
  unfold edge_valid distLE
  simp only [Bool.and_eq_true, decide_eq_true_eq]
  rw [show qmul thresh thresh = thresh ^ 2 by rw [qmul_eq]; ring]
  rw [euclid_le_iff, euclid_pos]
  tauto

theorem mem_othersOf {st : List Vertex} {q v : Vertex} :
    v ∈ othersOf st q ↔ v ∈ st ∧ v.id ≠ q.id := by
  unfold othersOf
  simp [List.mem_filter]

theorem mem_sortedOthers {st : List Vertex} {q v : Vertex} :
    v ∈ sortedOthers st q ↔ v ∈ st ∧ v.id ≠ q.id := by
  unfold sortedOthers
  rw [List.mem_insertionSort]
  exact mem_othersOf

theorem mem_of_mem_knnIds {st : List Vertex} {q : Vertex} {k : ℕ} {i : Int} :
    i ∈ knnIds st q k → ∃ v, v ∈ st ∧ v.id ≠ q.id ∧ v.id = i := by
  unfold knnIds
  intro h
  rcases List.mem_map.mp h with ⟨v, hv, rfl⟩
  rcases mem_sortedOthers.mp (List.mem_of_mem_take hv) with ⟨h1, h2⟩
  exact ⟨v, h1, h2, rfl⟩

theorem self_not_mem_knnIds (st : List Vertex) (q : Vertex) (k : ℕ) :
    q.id ∉ knnIds st q k := by
  intro h
  rcases mem_of_mem_knnIds h with ⟨v, _, hne, he⟩
  exact hne he

theorem find_knn_id_set (st : List Vertex) (q : Vertex) (k : ℕ) :
    (find_knn st q k).id_set = q.id_set ∪ (knnIds st q k).toFinset := rfl

theorem knnIds_nodup {st : List Vertex} (q : Vertex) (k : ℕ)
    (hnd : (st.map Vertex.id).Nodup) : (knnIds st q k).Nodup := by
  have h1 : ((othersOf st q).map Vertex.id).Nodup :=
    hnd.sublist ((List.filter_sublist st).map Vertex.id)
  have h2 : ((sortedOthers st q).map Vertex.id).Nodup :=
    (((List.perm_insertionSort (knnLE q) (othersOf st q)).map Vertex.id).nodup_iff).mpr h1
  exact h2.sublist (((sortedOthers st q).take_sublist k).map Vertex.id)

/-- C6: for every vertex `q` and every `k`, `find_knn(q, k)` records into
`q`'s id_set exactly the identifiers of the up-to-`k` other vertices in the
Configuration Store with the smallest Euclidean distance to `q`, breaking
distance ties in favor of the smaller identifier; when fewer than `k` other
vertices exist, all of them are recorded and no error is raised. -/
theorem find_knn_spec (st : List Vertex) (q : Vertex) (k : ℕ)
    (hnd : (st.map Vertex.id).Nodup) (h0 : q.id_set = ∅) :
    (find_knn st q k).id_set = (knnIds st q k).toFinset ∧
    (find_knn st q k).id_set.card = min k (othersOf st q).length ∧
    (∀ i ∈ (find_knn st q k).id_set, i ≠ q.id ∧ ∃ v ∈ st, v.id = i) ∧
    (∀ v ∈ st, v.id ∈ (find_knn st q k).id_set →
      ∀ w ∈ st, w.id ≠ q.id → w.id ∉ (find_knn st q k).id_set →
        euclid v.coords q.coords < euclid w.coords q.coords ∨
          (euclid v.coords q.coords = euclid w.coords q.coords ∧ v.id < w.id)) ∧
    ((othersOf st q).length ≤ k →
      ∀ w ∈ st, w.id ≠ q.id → w.id ∈ (find_knn st q k).id_set) := by
  have hperm : List.Perm (sortedOthers st q) (othersOf st q) := List.perm_insertionSort _ _
  have hsorted : List.Sorted (knnLE q) (sortedOthers st q) := List.sorted_insertionSort _ _
  have hS : (find_knn st q k).id_set = (knnIds st q k).toFinset := by
    rw [find_knn_id_set, h0, Finset.empty_union]
  have hmemS : ∀ i : Int, i ∈ (find_knn st q k).id_set ↔ i ∈ knnIds st q k := by
    intro i
    rw [hS, List.mem_toFinset]
  refine ⟨hS, ?_, ?_, ?_, ?_⟩
  · rw [hS, List.toFinset_card_of_nodup (knnIds_nodup q k hnd)]
    unfold knnIds
    rw [List.length_map, List.length_take, hperm.length_eq]
  · intro i hi
    rcases mem_of_mem_knnIds ((hmemS i).mp hi) with ⟨v, hv, hne, hid⟩
    exact ⟨hid ▸ hne, v, hv, hid⟩
  · intro v hv hvS w hw hwne hwS
    rcases List.mem_map.mp ((hmemS _).mp hvS) with ⟨v', hv', hvid⟩
    have hv'st : v' ∈ st := (mem_sortedOthers.mp (List.mem_of_mem_take hv')).1
    have hv'eq : v' = v := List.inj_on_of_nodup_map hnd hv'st hv hvid
    rw [hv'eq] at hv'
    have hwsorted : w ∈ sortedOthers st q := hperm.mem_iff.mpr (mem_othersOf.mpr ⟨hw, hwne⟩)
    have hwnotsel : w ∉ (sortedOthers st q).take k := by
      intro hmem
      exact hwS ((hmemS _).mpr (List.mem_map_of_mem Vertex.id hmem))
    have hwapp : w ∈ (sortedOthers st q).take k ++ (sortedOthers st q).drop k := by
      rw [List.take_append_drop]
      exact hwsorted
    have hwdrop : w ∈ (sortedOthers st q).drop k := by
      rcases List.mem_append.mp hwapp with h | h
      · exact absurd h hwnotsel
      · exact h
    have hpair : ∀ a ∈ (sortedOthers st q).take k, ∀ b ∈ (sortedOthers st q).drop k,
        knnLE q a b := by
      have hp := hsorted
      rw [← List.take_append_drop k (sortedOthers st q)] at hp
      exact (List.pairwise_append.mp hp).2.2
    have hidne : v.id ≠ w.id := by
      intro he
      exact hwS (he ▸ hvS)
    rcases hpair _ hv' _ hwdrop with h | ⟨heq, hle⟩
    · exact Or.inl ((euclid_lt_iff _ _ _ _).mpr h)
    · exact Or.inr ⟨(euclid_eq_iff _ _ _ _).mpr heq, lt_of_le_of_ne hle hidne⟩
  · intro hlen w hw hwne
    have htake : (sortedOthers st q).take k = sortedOthers st q :=
      List.take_of_length_le (by rw [hperm.length_eq]; exact hlen)
    have hwsel : w ∈ (sortedOthers st q).take k := by
      rw [htake]
      exact hperm.mem_iff.mpr (mem_othersOf.mpr ⟨hw, hwne⟩)
    exact (hmemS _).mpr (List.mem_map_of_mem Vertex.id hwsel)

theorem foldl_pres {α β : Type} {P : β → Prop} {f : β → α → β}
    (hf : ∀ b a, P b → P (f b a)) :
    ∀ (l : List α) (b : β), P b → P (l.foldl f b) := by
  intro l
  induction l with
  | nil => intro b hb; exact hb
  | cons a t ih => intro b hb; exact ih _ (hf b a hb)

theorem findV_mem {st : List Vertex} {i : Int} {v : Vertex} (h : findV st i = some v) :
    v ∈ st ∧ v.id = i := by
  unfold findV at h
  refine ⟨List.mem_of_find?_eq_some h, ?_⟩
  have h2 := List.find?_some h
  simpa using h2

theorem vertex_eq_of_id {st : List Vertex} (hnd : (st.map Vertex.id).Nodup) {v w : Vertex}
    (hv : v ∈ st) (hw : w ∈ st) (h : v.id = w.id) : v = w :=
  List.inj_on_of_nodup_map hnd hv hw h

theorem addHalf_id (j : Int) (d : ℚ) (v : Vertex) : (addHalf j d v).id = v.id := rfl

theorem upd2_id (i j : Int) (d : ℚ) (v : Vertex) : (upd2 i j d v).id = v.id := by
  unfold upd2
  split
  · rfl
  split
  · rfl
  rfl

theorem upd2_shape (i j : Int) (d : ℚ) (v : Vertex) : shape (upd2 i j d v) = shape v := by
  unfold upd2
  split
  · rfl
  split
  · rfl
  rfl

theorem upd2_edges_mono (i j : Int) (d : ℚ) (v : Vertex) {e : Edge} (he : e ∈ v.edges) :
    e ∈ (upd2 i j d v).edges := by
  unfold upd2
  split
  · exact List.mem_append_left _ he
  split
  · exact List.mem_append_left _ he
  exact he

theorem commitEdge_eq_map {i j : Int} (h : i ≠ j) (st : List Vertex) (d : ℚ) :
    commitEdge st i j d = st.map (upd2 i j d) := by
  unfold commitEdge updAt
  rw [List.map_map]
  apply List.map_congr_left
  intro v _
  unfold upd2
  simp only [Function.comp_apply]
  by_cases h1 : v.id = i
  · rw [if_pos h1]
    rw [if_neg (show ¬ (addHalf j d v).id = j by intro hc; rw [addHalf_id, h1] at hc; exact h hc)]
    rw [if_pos h1]
  · rw [if_neg h1]
    rw [if_neg h1]

theorem commitEdge_shape {i j : Int} (h : i ≠ j) (st : List Vertex) (d : ℚ) :
    (commitEdge st i j d).map shape = st.map shape := by
  rw [commitEdge_eq_map h, List.map_map]
  apply List.map_congr_left
  intro v _
  exact upd2_shape i j d v

theorem edge_valid_pos {o : Oracle} {r : ℚ} {q q' : Vertex} {t : ℚ}
    (h : edge_valid o r q q' t = true) : 0 < sqDist q.coords q'.coords := by
  unfold edge_valid at h
  simp only [Bool.and_eq_true, decide_eq_true_eq] at h
  exact h.1.2

theorem tryEdge_cases (o : Oracle) (infl th : ℚ) (qid : Int) (st : List Vertex) (c : Int) :
    tryEdge o infl th qid st c = st ∨
    ∃ q cv, findV st qid = some q ∧ findV st c = some cv ∧
      edge_valid o infl q cv th = true ∧ (¬ c ∈ q.id_set) ∧ qid ≠ c ∧
      tryEdge o infl th qid st c = commitEdge st qid c (sqDist q.coords cv.coords) := by
  unfold tryEdge
  cases hq : findV st qid with
  | none => exact Or.inl rfl
  | some q =>
    cases hc : findV st c with
    | none => exact Or.inl rfl
    | some cv =>
      dsimp only
      split
      case isTrue hg =>
        rw [Bool.and_eq_true, Bool.not_eq_true'] at hg
        have hnin : ¬ c ∈ q.id_set := by
          have := hg.2
          unfold Vertex.edge_exists at this
          simpa using this
        have hne : qid ≠ c := by
          intro he
          rw [he, hc] at hq
          have hqq : cv = q := by injection hq
          have hpos := edge_valid_pos hg.1
          rw [hqq.symm, sqDist_self] at hpos
          exact lt_irrefl 0 hpos
        exact Or.inr ⟨q, cv, rfl, rfl, hg.1, hnin, hne, rfl⟩
      case isFalse hg => exact Or.inl rfl

theorem tryEdge_shape (o : Oracle) (infl th : ℚ) (qid : Int) (st : List Vertex) (c : Int) :
    (tryEdge o infl th qid st c).map shape = st.map shape := by
  rcases tryEdge_cases o infl th qid st c with h | ⟨q, cv, _, _, _, _, hne, h⟩
  · rw [h]
  · rw [h]
    exact commitEdge_shape hne st _

theorem connectOne_shape (o : Oracle) (infl th : ℚ) (k : ℕ) (st : List Vertex) (qid : Int) :
    (connectOne o infl th k st qid).map shape = st.map shape := by
  unfold connectOne
  cases hq : findV st qid with
  | none => rfl
  | some q =>
    exact @foldl_pres _ _ (fun (s : List Vertex) => s.map shape = st.map shape) _
      (fun b a hb => by
        show (tryEdge o infl th qid b a).map shape = st.map shape
        rw [tryEdge_shape]
        exact hb) _ _ rfl

theorem connect_shape (o : Oracle) (infl th : ℚ) (k : ℕ) (st : List Vertex) :
    (connect o infl th k st).map shape = st.map shape := by
  unfold connect
  exact @foldl_pres _ _ (fun (s : List Vertex) => s.map shape = st.map shape) _
    (fun b a hb => by
      show (connectOne o infl th k b a).map shape = st.map shape
      rw [connectOne_shape]
      exact hb) _ _ rfl

theorem mem_shape_exists {st st' : List Vertex} (h : st'.map shape = st.map shape)
    {v' : Vertex} (hv' : v' ∈ st') :
    ∃ v ∈ st, v.id = v'.id ∧ v.coords = v'.coords ∧ v.visited = v'.visited := by
  have hm : shape v' ∈ st.map shape := h ▸ List.mem_map_of_mem shape hv'
  rcases List.mem_map.mp hm with ⟨v, hv, hs⟩
  unfold shape at hs
  rw [Prod.ext_iff, Prod.ext_iff] at hs
  exact ⟨v, hv, hs.1, hs.2.1, hs.2.2⟩

theorem upd2_eq_left {qid c : Int} {d : ℚ} {v : Vertex} (h : v.id = qid) :
    upd2 qid c d v = addHalf c d v := by
  unfold upd2
  rw [if_pos h]

theorem upd2_eq_right {qid c : Int} {d : ℚ} {v : Vertex} (h1 : v.id ≠ qid) (h2 : v.id = c) :
    upd2 qid c d v = addHalf qid d v := by
  unfold upd2
  rw [if_neg h1, if_pos h2]

theorem upd2_eq_other {qid c : Int} {d : ℚ} {v : Vertex} (h1 : v.id ≠ qid) (h2 : v.id ≠ c) :
    upd2 qid c d v = v := by
  unfold upd2
  rw [if_neg h1, if_neg h2]

theorem addHalf_edges (j : Int) (d : ℚ) (v : Vertex) :
    (addHalf j d v).edges = v.edges ++ [{ next_id := j, distance := d }] := rfl

theorem addHalf_id_set (j : Int) (d : ℚ) (v : Vertex) :
    (addHalf j d v).id_set = insert j v.id_set := rfl

theorem addHalf_lock {v : Vertex} (hl : v.id_set = (v.edges.map Edge.next_id).toFinset)
    (j : Int) (d : ℚ) :
    (addHalf j d v).id_set = ((addHalf j d v).edges.map Edge.next_id).toFinset := by
  rw [addHalf_id_set, addHalf_edges, List.map_append, List.toFinset_append, hl]
  rw [show (([{ next_id := j, distance := d }] : List Edge).map Edge.next_id).toFinset
      = ({j} : Finset Int) from rfl]
  rw [Finset.union_comm, ← Finset.insert_eq]

theorem addHalf_edgesNodup {v : Vertex} (hl : v.id_set = (v.edges.map Edge.next_id).toFinset)
    (hn : (v.edges.map Edge.next_id).Nodup) {j : Int} (hj : j ∉ v.id_set) (d : ℚ) :
    ((addHalf j d v).edges.map Edge.next_id).Nodup := by
  rw [addHalf_edges, List.map_append]
  rw [List.nodup_append]
  refine ⟨hn, List.nodup_singleton _, ?_⟩
  intro a ha hb
  rw [show (([{ next_id := j, distance := d }] : List Edge).map Edge.next_id)
      = [j] from rfl] at hb
  rw [List.mem_singleton] at hb
  subst hb
  apply hj
  rw [hl, List.mem_toFinset]
  exact ha

theorem addHalf_noSelf {v : Vertex} (hs : v.id ∉ v.id_set) {j : Int} (hj : v.id ≠ j) (d : ℚ) :
    (addHalf j d v).id ∉ (addHalf j d v).id_set := by
  rw [addHalf_id, addHalf_id_set]
  intro hmem
  rcases Finset.mem_insert.mp hmem with h | h
  · exact hj h
  · exact hs h

theorem commitEdge_wf {st : List Vertex} (hwf : Wf st) {qid c : Int} {q cv : Vertex}
    (hq : findV st qid = some q) (hc : findV st c = some cv)
    (hne : qid ≠ c) (hnin : c ∉ q.id_set) (d : ℚ) :
    Wf (commitEdge st qid c d) := by
  obtain ⟨hqm, hqi⟩ := findV_mem hq
  obtain ⟨hcm, hci⟩ := findV_mem hc
  have hcvq : cv.id ≠ qid := by
    intro hcc
    rw [hcc] at hci
    exact hne hci
  have hninR : qid ∉ cv.id_set := by
    intro hmem
    rw [hwf.lock cv hcm, List.mem_toFinset] at hmem
    rcases List.mem_map.mp hmem with ⟨e, he, hei⟩
    rcases hwf.sym cv hcm e he with ⟨w, hwm, hwi, hrev⟩
    have hwq : w = q := vertex_eq_of_id hwf.nodupIds hwm hqm (by rw [hwi, hei, hqi])
    apply hnin
    rw [hwf.lock q hqm, List.mem_toFinset]
    refine List.mem_map.mpr ⟨{ next_id := cv.id, distance := e.distance }, ?_, hci⟩
    rw [← hwq]
    exact hrev
  rw [commitEdge_eq_map hne]
  refine ⟨?_, ?_, ?_, ?_, ?_⟩
  · rw [List.map_map]
    rw [show Vertex.id ∘ upd2 qid c d = Vertex.id from funext fun v => upd2_id qid c d v]
    exact hwf.nodupIds
  · intro v' hv'
    rcases List.mem_map.mp hv' with ⟨v, hv, rfl⟩
    by_cases h1 : v.id = qid
    · rw [upd2_eq_left h1]
      exact addHalf_lock (hwf.lock v hv) c d
    · by_cases h2 : v.id = c
      · rw [upd2_eq_right h1 h2]
        exact addHalf_lock (hwf.lock v hv) qid d
      · rw [upd2_eq_other h1 h2]
        exact hwf.lock v hv
  · intro v' hv'
    rcases List.mem_map.mp hv' with ⟨v, hv, rfl⟩
    by_cases h1 : v.id = qid
    · have hvq : v = q := vertex_eq_of_id hwf.nodupIds hv hqm (h1.trans hqi.symm)
      subst hvq
      rw [upd2_eq_left h1]
      exact addHalf_edgesNodup (hwf.lock v hv) (hwf.edgesNodup v hv) hnin d
    · by_cases h2 : v.id = c
      · have hvc : v = cv := vertex_eq_of_id hwf.nodupIds hv hcm (h2.trans hci.symm)
        subst hvc
        rw [upd2_eq_right h1 h2]
        exact addHalf_edgesNodup (hwf.lock v hv) (hwf.edgesNodup v hv) hninR d
      · rw [upd2_eq_other h1 h2]
        exact hwf.edgesNodup v hv
  · intro v' hv'
    rcases List.mem_map.mp hv' with ⟨v, hv, rfl⟩
    by_cases h1 : v.id = qid
    · rw [upd2_eq_left h1]
      exact addHalf_noSelf (hwf.noSelf v hv) (by rw [h1]; exact hne) d
    · by_cases h2 : v.id = c
      · rw [upd2_eq_right h1 h2]
        exact addHalf_noSelf (hwf.noSelf v hv) (by rw [h2]; exact fun hh => hne hh.symm) d
      · rw [upd2_eq_other h1 h2]
        exact hwf.noSelf v hv
  · intro v' hv'
    rcases List.mem_map.mp hv' with ⟨v, hv, rfl⟩
    have hold : ∀ e ∈ v.edges, ∃ w ∈ List.map (upd2 qid c d) st,
        w.id = e.next_id ∧
          ({ next_id := v.id, distance := e.distance } : Edge) ∈ w.edges := by
      intro e he
      rcases hwf.sym v hv e he with ⟨w, hwm, hwi, hrev⟩
      refine ⟨upd2 qid c d w, List.mem_map_of_mem _ hwm, ?_, ?_⟩
      · rw [upd2_id]
        exact hwi
      · exact upd2_edges_mono _ _ _ _ hrev
    by_cases h1 : v.id = qid
    · have hvq : v = q := vertex_eq_of_id hwf.nodupIds hv hqm (h1.trans hqi.symm)
      rw [upd2_eq_left h1]
      intro e he
      rw [addHalf_edges] at he
      rcases List.mem_append.mp he with he | he
      · rcases hold e he with ⟨w, hwm, hwi, hrev⟩
        refine ⟨w, hwm, hwi, ?_⟩
        rw [addHalf_id]
        exact hrev
      · rw [List.mem_singleton] at he
        subst he
        refine ⟨upd2 qid c d cv, List.mem_map_of_mem _ hcm, ?_, ?_⟩
        · rw [upd2_id]
          exact hci
        · rw [upd2_eq_right hcvq hci, addHalf_id, addHalf_edges]
          apply List.mem_append_right
          rw [List.mem_singleton]
          rw [hvq, hqi]
    · by_cases h2 : v.id = c
      · have hvc : v = cv := vertex_eq_of_id hwf.nodupIds hv hcm (h2.trans hci.symm)
        rw [upd2_eq_right h1 h2]
        intro e he
        rw [addHalf_edges] at he
        rcases List.mem_append.mp he with he | he
        · rcases hold e he with ⟨w, hwm, hwi, hrev⟩
          refine ⟨w, hwm, hwi, ?_⟩
          rw [addHalf_id]
          exact hrev
        · rw [List.mem_singleton] at he
          subst he
          refine ⟨upd2 qid c d q, List.mem_map_of_mem _ hqm, ?_, ?_⟩
          · rw [upd2_id]
            exact hqi
          · rw [upd2_eq_left hqi, addHalf_id, addHalf_edges]
            apply List.mem_append_right
            rw [List.mem_singleton]
            rw [hvc, hci]
      · rw [upd2_eq_other h1 h2]
        exact hold

theorem tryEdge_wf (o : Oracle) (infl th : ℚ) (qid : Int) {st : List Vertex} (hwf : Wf st)
    (c : Int) : Wf (tryEdge o infl th qid st c) := by
  rcases tryEdge_cases o infl th qid st c with h | ⟨q, cv, hq, hc, _, hnin, hne, h⟩
  · rw [h]
    exact hwf
  · rw [h]
    exact commitEdge_wf hwf hq hc hne hnin _

theorem connectOne_wf (o : Oracle) (infl th : ℚ) (k : ℕ) {st : List Vertex} (hwf : Wf st)
    (qid : Int) : Wf (connectOne o infl th k st qid) := by
  unfold connectOne
  cases hq : findV st qid with
  | none => exact hwf
  | some q => exact @foldl_pres _ _ Wf _ (fun b a hb => tryEdge_wf o infl th qid hb a) _ _ hwf

theorem connect_wf (o : Oracle) (infl th : ℚ) (k : ℕ) {st : List Vertex} (hwf : Wf st) :
    Wf (connect o infl th k st) := by
  unfold connect
  exact @foldl_pres _ _ Wf _ (fun b a hb => connectOne_wf o infl th k hb a) _ _ hwf

theorem wf_nil : Wf ([] : List Vertex) := by
  refine ⟨?_, ?_, ?_, ?_, ?_⟩ <;> simp

theorem mem_assignIds {i : Int} {l : List Vector2D} {v : Vertex} (h : v ∈ assignIds i l) :
    i ≤ v.id ∧ ∃ c ∈ l, v = mkVertexI v.id c := by
  induction l generalizing i with
  | nil =>
    unfold assignIds at h
    exact absurd h (List.not_mem_nil v)
  | cons c t ih =>
    unfold assignIds at h
    rcases List.mem_cons.mp h with h | h
    · subst h
      exact ⟨le_refl i, ⟨c, List.mem_cons_self c t, rfl⟩⟩
    · rcases ih h with ⟨h1, h2⟩
      refine ⟨by omega, ?_⟩
      rcases h2 with ⟨c', hc', he⟩
      exact ⟨c', List.mem_cons_of_mem _ hc', he⟩

theorem assignIds_nodup (i : Int) (l : List Vector2D) :
    ((assignIds i l).map Vertex.id).Nodup := by
  induction l generalizing i with
  | nil => simp [assignIds]
  | cons c t ih =>
    unfold assignIds
    rw [List.map_cons, List.nodup_cons]
    refine ⟨?_, ih (i + 1)⟩
    intro hmem
    rcases List.mem_map.mp hmem with ⟨w, hw, hwi⟩
    have hb := (mem_assignIds hw).1
    rw [hwi] at hb
    simp only [mkVertexI] at hb
    omega

theorem assignIds_props {i : Int} {l : List Vector2D} {v : Vertex} (h : v ∈ assignIds i l) :
    v.edges = [] ∧ v.id_set = ∅ ∧ v.visited = false ∧ v.coords ∈ l := by
  rcases (mem_assignIds h).2 with ⟨c, hc, he⟩
  refine ⟨by rw [he]; rfl, by rw [he]; rfl, by rw [he]; rfl, ?_⟩
  rw [he]
  exact hc

theorem sample_wf {o : Oracle} {draws : List Vector2D} {n : ℕ} {vs : List Vertex}
    (h : sample_configurations o draws n = some vs) :
    Wf vs ∧ ∀ v ∈ vs, o.pointFree v.coords = true ∧ v.visited = false := by
  unfold sample_configurations at h
  split at h
  case isTrue hlen =>
    injection h with h
    subst h
    constructor
    · refine ⟨assignIds_nodup 0 _, ?_, ?_, ?_, ?_⟩
      · intro v hv
        rw [(assignIds_props hv).2.1, (assignIds_props hv).1]
        rfl
      · intro v hv
        rw [(assignIds_props hv).1]
        exact List.nodup_nil
      · intro v hv
        rw [(assignIds_props hv).2.1]
        exact Finset.not_mem_empty _
      · intro v hv e he
        rw [(assignIds_props hv).1] at he
        exact absurd he (List.not_mem_nil e)
    · intro v hv
      rcases assignIds_props hv with ⟨_, _, hvis, hco⟩
      refine ⟨?_, hvis⟩
      exact (List.mem_filter.mp (List.mem_of_mem_take hco)).2
  case isFalse => exact Option.noConfusion h

theorem build_map_cases (o : Oracle) (infl : ℚ) (draws : List Vector2D) (n k : Int)
    (thresh : ℚ) (st0 : List Vertex) :
    build_map o infl draws n k thresh st0 = ([], some BuildError.invalidParameter) ∨
    build_map o infl draws n k thresh st0 = ([], some BuildError.samplingExhausted) ∨
    ∃ vs, sample_configurations o draws n.toNat = some vs ∧
      build_map o infl draws n k thresh st0 = (connect o infl thresh k.toNat vs, none) := by
  unfold build_map
  split
  · exact Or.inl rfl
  · cases hs : sample_configurations o draws n.toNat with
    | none => exact Or.inr (Or.inl rfl)
    | some vs => exact Or.inr (Or.inr ⟨vs, rfl, rfl⟩)

theorem build_wf (o : Oracle) (infl : ℚ) (draws : List Vector2D) (n k : Int) (thresh : ℚ)
    (st0 : List Vertex) :
    Wf (build_map o infl draws n k thresh st0).1 ∧
    ∀ v ∈ (build_map o infl draws n k thresh st0).1,
      o.pointFree v.coords = true ∧ v.visited = false := by
  rcases build_map_cases o infl draws n k thresh st0 with h | h | ⟨vs, hs, h⟩
  · rw [h]
    exact ⟨wf_nil, by simp⟩
  · rw [h]
    exact ⟨wf_nil, by simp⟩
  · rw [h]
    obtain ⟨hwf, hprops⟩ := sample_wf hs
    dsimp only
    refine ⟨connect_wf o infl thresh k.toNat hwf, ?_⟩
    intro v hv
    obtain ⟨w, hw, _, hco, hvis⟩ := mem_shape_exists (connect_shape o infl thresh k.toNat vs) hv
    obtain ⟨hp, hv2⟩ := hprops w hw
    rw [← hco, ← hvis]
    exact ⟨hp, hv2⟩

/-- C2: for every roadmap produced by a successful build_map, every vertex
in the mapping returned by return_prm is collision-free: the point-in-
obstacle test (the one-argument no_collision) reports no obstacle
intersection for its coordinates, because sample_configurations inserts a
candidate only after the point test passes. -/
theorem build_map_collision_free (o : Oracle) (inflate_robot : ℚ) (draws : List Vector2D)
    (n k : Int) (thresh : ℚ) (st0 : List Vertex) :
    (∀ p ∈ return_prm (build_map o inflate_robot draws n k thresh st0).1,
      no_collision o p.2 = true) ∧
    ∀ (m : ℕ) (vs : List Vertex), sample_configurations o draws m = some vs →
      ∀ v ∈ vs, no_collision o v = true := by
  constructor
  · intro p hp
    unfold return_prm at hp
    rcases List.mem_map.mp hp with ⟨v, hv, rfl⟩
    exact ((build_wf o inflate_robot draws n k thresh st0).2 v hv).1
  · intro m vs hs v hv
    exact ((sample_wf hs).2 v hv).1

theorem build_map_collision_free_witness : no_collision oAll vA0 = true :=
  (build_map_collision_free oAll 0 drawsA 2 1 2 []).1 ((0 : Int), vA0) (by decide)

/-- C3: in every roadmap returned by return_prm after build_map, edges are
symmetric: whenever vertex A's edges contain an entry (B, d), vertex B's
edges contain an entry (A, d) with the same distance value. -/
theorem build_map_symmetric (o : Oracle) (inflate_robot : ℚ) (draws : List Vector2D)
    (n k : Int) (thresh : ℚ) (st0 : List Vertex) :
    ∀ p ∈ return_prm (build_map o inflate_robot draws n k thresh st0).1,
      ∀ e ∈ p.2.edges,
        ∃ p2 ∈ return_prm (build_map o inflate_robot draws n k thresh st0).1,
          p2.1 = e.next_id ∧
            ({ next_id := p.2.id, distance := e.distance } : Edge) ∈ p2.2.edges := by
  intro p hp e he
  unfold return_prm at hp ⊢
  rcases List.mem_map.mp hp with ⟨v, hv, rfl⟩
  rcases (build_wf o inflate_robot draws n k thresh st0).1.sym v hv e he with
    ⟨w, hwm, hwi, hrev⟩
  exact ⟨(w.id, w), List.mem_map_of_mem _ hwm, hwi, hrev⟩

theorem build_map_symmetric_witness :
    ∃ p2 ∈ return_prm builtA, p2.1 = (1 : Int) ∧
      ({ next_id := 0, distance := 1 } : Edge) ∈ p2.2.edges :=
  build_map_symmetric oAll 0 drawsA 2 1 2 [] ((0 : Int), vA0) (by decide)
    ({ next_id := 1, distance := 1 } : Edge) (by decide)

/-- C4 counterexample: the claim demands the edges/id_set lockstep at every
point observable through the public interface, but after the public
find_knn records a candidate neighbor id (per its contract, before any
edge exists), edge_exists reports true while the edge list is empty and
the sizes disagree. -/
theorem vertex_lockstep_cex :
    (find_knn stB (mkVertexI 0 ⟨0, 0⟩) 1).edge_exists 1 = true ∧
    (find_knn stB (mkVertexI 0 ⟨0, 0⟩) 1).edges.map Edge.next_id = [] ∧
    (find_knn stB (mkVertexI 0 ⟨0, 0⟩) 1).id_set.card ≠
      (find_knn stB (mkVertexI 0 ⟨0, 0⟩) 1).edges.length := by
  decide

/-- C4 (amended): edge_exists reports membership in id_set; for every
vertex of a roadmap produced by build_map, edges and id_set are in
lockstep: a neighbor id is in id_set iff it is among the next_id fields of
edges, id_set has no repeated entries (it is a set), its size equals the
size of edges, and edge_exists decides membership among the edges.  (After
a bare public find_knn call, id_set additionally holds the recorded
candidate ids that have no edges yet.) -/
theorem roadmap_lockstep (o : Oracle) (inflate_robot : ℚ) (draws : List Vector2D)
    (n k : Int) (thresh : ℚ) (st0 : List Vertex) :
    (∀ (v : Vertex) (c : Int), v.edge_exists c = true ↔ c ∈ v.id_set) ∧
    ∀ p ∈ return_prm (build_map o inflate_robot draws n k thresh st0).1,
      p.2.id_set = (p.2.edges.map Edge.next_id).toFinset ∧
      (p.2.edges.map Edge.next_id).Nodup ∧
      p.2.id_set.card = p.2.edges.length ∧
      ∀ c : Int, p.2.edge_exists c = true ↔ c ∈ p.2.edges.map Edge.next_id := by
  constructor
  · intro v c
    unfold Vertex.edge_exists
    simp
  · intro p hp
    unfold return_prm at hp
    rcases List.mem_map.mp hp with ⟨v, hv, rfl⟩
    have hwf := (build_wf o inflate_robot draws n k thresh st0).1
    have hl := hwf.lock v hv
    have hn := hwf.edgesNodup v hv
    refine ⟨hl, hn, ?_, ?_⟩
    · rw [hl, List.toFinset_card_of_nodup hn, List.length_map]
    · intro c
      unfold Vertex.edge_exists
      rw [decide_eq_true_eq, hl, List.mem_toFinset]

theorem roadmap_lockstep_witness :
    vA0.id_set = (vA0.edges.map Edge.next_id).toFinset ∧
    (vA0.edges.map Edge.next_id).Nodup ∧
    vA0.id_set.card = vA0.edges.length ∧
    ∀ c : Int, vA0.edge_exists c = true ↔ c ∈ vA0.edges.map Edge.next_id :=
  (roadmap_lockstep oAll 0 drawsA 2 1 2 []).2 ((0 : Int), vA0) (by decide)

/-- C5: no vertex is ever connected to itself: find_knn never records q's
own identifier among q's candidate neighbors (its recorded set is exactly
q's previous set united with the candidate ids, which exclude q.id), and
in a built roadmap no vertex's id_set contains its own id. -/
theorem no_self_loops (o : Oracle) (inflate_robot : ℚ) (draws : List Vector2D)
    (n k : Int) (thresh : ℚ) (st0 : List Vertex) :
    (∀ (st : List Vertex) (q : Vertex) (k2 : ℕ),
      q.id ∉ knnIds st q k2 ∧
      (find_knn st q k2).id_set = q.id_set ∪ (knnIds st q k2).toFinset) ∧
    ∀ p ∈ return_prm (build_map o inflate_robot draws n k thresh st0).1,
      p.2.id ∉ p.2.id_set := by
  constructor
  · intro st q k2
    exact ⟨self_not_mem_knnIds st q k2, find_knn_id_set st q k2⟩
  · intro p hp
    unfold return_prm at hp
    rcases List.mem_map.mp hp with ⟨v, hv, rfl⟩
    exact (build_wf o inflate_robot draws n k thresh st0).1.noSelf v hv

theorem no_self_loops_witness :
    (mkVertexI 0 ⟨0, 0⟩).id ∉ knnIds stB (mkVertexI 0 ⟨0, 0⟩) 1 ∧
    vA0.id ∉ vA0.id_set :=
  ⟨((no_self_loops oAll 0 drawsA 2 1 2 []).1 stB (mkVertexI 0 ⟨0, 0⟩) 1).1,
    (no_self_loops oAll 0 drawsA 2 1 2 []).2 ((0 : Int), vA0) (by decide)⟩

theorem find_knn_spec_witness :
    ((stB.map Vertex.id).Nodup ∧ (mkVertexI 0 ⟨0, 0⟩).id_set = ∅) ∧
    (find_knn stB (mkVertexI 0 ⟨0, 0⟩) 1).id_set.card =
      min 1 (othersOf stB (mkVertexI 0 ⟨0, 0⟩)).length :=
  ⟨⟨by decide, by decide⟩,
    (find_knn_spec stB (mkVertexI 0 ⟨0, 0⟩) 1 (by decide) (by decide)).2.1⟩

/-- C7 counterexample: build_map with n = 0 on a nonempty Configuration
Store fails with InvalidParameter, but the store is not left unmodified:
the state machine clears it on entry, leaving it Empty. -/
theorem build_map_invalid_cex :
    (build_map oAll 0 drawsA 0 1 1 stC).2 = some BuildError.invalidParameter ∧
    (build_map oAll 0 drawsA 0 1 1 stC).1 ≠ stC := by
  decide

/-- C7 (amended): build_map called with n ≤ 0, k ≤ 0, or thresh ≤ 0 fails
with InvalidParameter before any sampling begins — the result does not
depend on the oracle or on the random draws — and the Configuration Store
is cleared (left Empty, as on entry of every build_map call), rather than
left unmodified. -/
theorem build_map_invalid (o : Oracle) (inflate_robot : ℚ) (draws : List Vector2D)
    (n k : Int) (thresh : ℚ) (st0 : List Vertex)
    (h : n ≤ 0 ∨ k ≤ 0 ∨ thresh ≤ 0) :
    build_map o inflate_robot draws n k thresh st0
      = ([], some BuildError.invalidParameter) := by
  unfold build_map
  rw [if_pos h]

theorem build_map_invalid_witness :
    ((0 : Int) ≤ 0 ∨ (1 : Int) ≤ 0 ∨ (1 : ℚ) ≤ 0) ∧
    build_map oAll 0 drawsA 0 1 1 stC = ([], some BuildError.invalidParameter) :=
  ⟨Or.inl le_rfl, build_map_invalid oAll 0 drawsA 0 1 1 stC (Or.inl le_rfl)⟩

/-- C8: when a build_map call fails (with any error, for example
SamplingExhausted), the Configuration Store is left in the Empty state, so
a subsequent return_prm exposes no partial roadmap; and return_prm called
before any successful build_map (on the freshly constructed PRM) returns
an empty mapping. -/
theorem build_map_fail_empty (o : Oracle) (inflate_robot : ℚ) (draws : List Vector2D)
    (n k : Int) (thresh : ℚ) (st0 : List Vertex) :
    (∀ e : BuildError, (build_map o inflate_robot draws n k thresh st0).2 = some e →
      (build_map o inflate_robot draws n k thresh st0).1 = [] ∧
      return_prm (build_map o inflate_robot draws n k thresh st0).1 = []) ∧
    return_prm initialPRM = [] := by
  constructor
  · intro e he
    rcases build_map_cases o inflate_robot draws n k thresh st0 with h | h | ⟨vs, hs, h⟩
    · rw [h]
      exact ⟨rfl, rfl⟩
    · rw [h]
      exact ⟨rfl, rfl⟩
    · rw [h] at he
      exact Option.noConfusion he
  · rfl

theorem build_map_fail_empty_witness :
    (build_map oAll 0 ([] : List Vector2D) 1 1 1 []).2 = some BuildError.samplingExhausted ∧
    ((build_map oAll 0 ([] : List Vector2D) 1 1 1 []).1 = [] ∧
      return_prm (build_map oAll 0 ([] : List Vector2D) 1 1 1 []).1 = []) :=
  ⟨by decide,
    (build_map_fail_empty oAll 0 [] 1 1 1 []).1 BuildError.samplingExhausted (by decide)⟩

theorem knnLE_setVis (q : Vertex) (b : Bool) : knnLE (setVis b q) = knnLE q := rfl

theorem orderedInsert_map_setVis (q : Vertex) (b : Bool) (a : Vertex) (l : List Vertex) :
    List.orderedInsert (knnLE q) (setVis b a) (l.map (setVis b)) =
      (List.orderedInsert (knnLE q) a l).map (setVis b) := by
  induction l with
  | nil => rfl
  | cons x t ih =>
    show List.orderedInsert (knnLE q) (setVis b a) (setVis b x :: t.map (setVis b)) = _
    unfold List.orderedInsert
    by_cases h : knnLE q a x
    · rw [if_pos (show knnLE q (setVis b a) (setVis b x) from h), if_pos h]
      rfl
    · rw [if_neg (show ¬ knnLE q (setVis b a) (setVis b x) from h), if_neg h]
      show setVis b x :: _ = _
      rw [List.map_cons, ih]

theorem insertionSort_map_setVis (q : Vertex) (b : Bool) (l : List Vertex) :
    List.insertionSort (knnLE q) (l.map (setVis b)) =
      (List.insertionSort (knnLE q) l).map (setVis b) := by
  induction l with
  | nil => rfl
  | cons x t ih =>
    show List.insertionSort (knnLE q) (setVis b x :: t.map (setVis b)) = _
    unfold List.insertionSort
    rw [ih, orderedInsert_map_setVis]

theorem othersOf_setVis (st : List Vertex) (q : Vertex) (b b' : Bool) :
    othersOf (st.map (setVis b)) (setVis b' q) = (othersOf st q).map (setVis b) := by
  unfold othersOf
  induction st with
  | nil => rfl
  | cons x t ih =>
    show List.filter _ (setVis b x :: t.map (setVis b)) = _
    by_cases h : x.id = q.id
    · rw [List.filter_cons_of_neg (by simp [setVis, h]),
        List.filter_cons_of_neg (by simp [h]), ih]
    · rw [List.filter_cons_of_pos (by simp [setVis, h]),
        List.filter_cons_of_pos (by simp [h]), List.map_cons, ih]

theorem knnIds_setVis (st : List Vertex) (q : Vertex) (k : ℕ) (b b' : Bool) :
    knnIds (st.map (setVis b)) (setVis b' q) k = knnIds st q k := by
  unfold knnIds sortedOthers
  show ((List.insertionSort (knnLE q)
      (othersOf (st.map (setVis b)) (setVis b' q))).take k).map Vertex.id = _
  rw [othersOf_setVis, insertionSort_map_setVis, ← List.map_take, List.map_map]
  rw [show Vertex.id ∘ setVis b = Vertex.id from funext fun v => rfl]

/-- C10: every Vertex produced by construction has its visited flag
initialized to the fixed default false, and no construction operation
(sample_configurations via build_map, find_knn, edge_valid, build_map)
reads or depends on the value of visited: every built vertex carries
visited = false, and overwriting visited flags of the inputs changes
nothing in any construction result. -/
theorem visited_unused (o : Oracle) (inflate_robot thresh : ℚ) (b b' : Bool) :
    (∀ c : Vector2D, (mkVertex c).visited = false) ∧
    (∀ (draws : List Vector2D) (n k : Int) (st0 : List Vertex),
      ∀ v ∈ (build_map o inflate_robot draws n k thresh st0).1, v.visited = false) ∧
    (∀ q q_prime : Vertex,
      edge_valid o inflate_robot (setVis b q) (setVis b' q_prime) thresh
        = edge_valid o inflate_robot q q_prime thresh) ∧
    (∀ (st : List Vertex) (q : Vertex) (k2 : ℕ),
      knnIds (st.map (setVis b)) (setVis b' q) k2 = knnIds st q k2) ∧
    (∀ (st : List Vertex) (q : Vertex) (k2 : ℕ),
      (find_knn (st.map (setVis b)) (setVis b' q) k2).id_set
        = q.id_set ∪ (knnIds st q k2).toFinset) ∧
    (∀ (draws : List Vector2D) (n k : Int) (st0 : List Vertex),
      build_map o inflate_robot draws n k thresh (st0.map (setVis b))
        = build_map o inflate_robot draws n k thresh st0) := by
  refine ⟨fun c => rfl, ?_, fun q q_prime => rfl, fun st q k2 => knnIds_setVis st q k2 b b',
    ?_, fun draws n k st0 => rfl⟩
  · intro draws n k st0 v hv
    exact ((build_wf o inflate_robot draws n k thresh st0).2 v hv).2
  · intro st q k2
    rw [find_knn_id_set, knnIds_setVis]
    rfl

theorem visited_unused_witness :
    (mkVertex ⟨2, 3⟩).visited = false ∧ vA0.visited = false :=
  ⟨(visited_unused oAll 0 2 false true).1 ⟨2, 3⟩,
    (visited_unused oAll 0 2 false true).2.1 drawsA 2 1 [] vA0 (by decide)⟩

end map
